import Mathlib

/-!
Shallow embedding of `src/tax_cal.py` (a small Tkinter tax calculator).

Modelling conventions:
* Python floats are modelled as rationals (`ℚ`); the source applies no
  rounding internally and every constant involved is exact.
* `float("inf")` is modelled by `none` in an `Option ℚ` upper bound.  In
  the source a bracket's `up_to` is either `None` (before normalisation)
  or `float("inf")` (after normalisation) or a finite float; infinity
  only appears as a sort key and inside the `span` arithmetic, whose
  cases are spelled out in `spanOf` below.
* Fallible Python code (uncaught exceptions) is modelled with
  `Option`/`Except`.
-/

namespace TaxCal

/-- The `Bracket` dataclass (tax_cal.py, lines 30-33): `up_to = none`
models Python `None` before normalisation and `float("inf")` after;
`rate` is a percentage. -/
structure Bracket where
  up_to : Option ℚ
  rate : ℚ
deriving DecidableEq, Repr

/-- The bracket rebuilt by the comprehension at line 118:
`Bracket(float("inf") if b.up_to is None else float(b.up_to), float(b.rate))`.
With `none` standing for both `None` and infinity, and `ℚ` for float,
this is the identity on values (in Python it allocates a fresh object). -/
def normalizeB (b : Bracket) : Bracket :=
  { up_to := b.up_to, rate := b.rate }

/-- Order on upper bounds used by `sorted(..., key=lambda b: b.up_to)`
(line 119): finite floats by `≤`, with infinity (`none`) greatest. -/
def bndLe : Option ℚ → Option ℚ → Prop
  | some a, some b => a ≤ b
  | some _, none => True
  | none, some _ => False
  | none, none => True

instance : DecidableRel bndLe := fun a b =>
  match a, b with
  | some a, some b => inferInstanceAs (Decidable (a ≤ b))
  | some _, none => .isTrue trivial
  | none, some _ => .isFalse (fun h => h)
  | none, none => .isTrue trivial

/-- Sort order on brackets: by upper bound, infinity last (lines 117-120). -/
def bLe (a b : Bracket) : Prop := bndLe a.up_to b.up_to

instance : DecidableRel bLe := fun a b =>
  inferInstanceAs (Decidable (bndLe a.up_to b.up_to))

instance : IsTotal Bracket bLe :=
  ⟨fun a b => by
    obtain ⟨ua, ra⟩ := a; obtain ⟨ub, rb⟩ := b
    cases ua <;> cases ub <;> simp only [bLe, bndLe] <;>
      first | exact Or.inl trivial | exact Or.inr trivial | exact le_total _ _⟩

instance : IsTrans Bracket bLe :=
  ⟨fun a b c hab hbc => by
    obtain ⟨ua, ra⟩ := a; obtain ⟨ub, rb⟩ := b; obtain ⟨uc, rc⟩ := c
    cases ua <;> cases ub <;> cases uc <;>
      simp only [bLe, bndLe] at hab hbc ⊢ <;>
      first | trivial | exact le_trans hab hbc⟩

/-- The quantity `span = max(0.0, min(remaining, upper_bound - lower_bound))`
(line 133), with the IEEE-infinity cases of the subtraction spelled out:
`inf - finite = inf` (the `min` then yields `remaining`),
`finite - inf = -inf` (the span clamps to `0`), and the `nan` case
`inf - inf` (where Python's `min(r, nan)` is `r` and `max(0.0, r)` is
`max 0 r`); that last case is unreachable because the walk breaks once
`remaining` hits `0`, which happens at the latest on the first infinite
bracket. -/
def spanOf (remaining : ℚ) (lower upper : Option ℚ) : ℚ :=
  match upper, lower with
  | some u, some l => max 0 (min remaining (u - l))
  | none, some _ => max 0 remaining
  | some _, none => 0
  | none, none => max 0 remaining

/-- The bracket walk (lines 126-142): iterate the cleaned brackets with
state `remaining`, `lower_bound`, `total_tax`, `marginal_rate`; on each
bracket take the span, accumulate `span * rate / 100` and update the
marginal rate when the span is positive, advance the lower bound, and
break once no income remains. -/
def walk : List Bracket → ℚ → Option ℚ → ℚ → ℚ → ℚ × ℚ
  | [], _, _, total, marginal => (total, marginal)
  | b :: rest, remaining, lower, total, marginal =>
    let span := spanOf remaining lower b.up_to
    let total' := if 0 < span then total + span * (b.rate / 100) else total
    let remaining' := if 0 < span then remaining - span else remaining
    let marginal' := if 0 < span then b.rate else marginal
    if remaining' ≤ 0 then (total', marginal')
    else walk rest remaining' b.up_to total' marginal'

/-- Lines 117-120: the `cleaned` list — each input bracket normalised,
then sorted ascending by upper bound with infinity last.  Python's sort
is stable, and so is insertion sort over a total preorder, and a stable
sort's output is unique, so the two agree exactly. -/
def cleanedOf (brackets : List Bracket) : List Bracket :=
  List.insertionSort bLe (brackets.map normalizeB)

/-- The function `compute_tax_flat` (lines 109-111). -/
def compute_tax_flat (taxable rate : ℚ) : ℚ × ℚ :=
  (max 0 taxable * (rate / 100), rate)

/-- The function `compute_tax_progressive` (lines 114-142).  Accessing
`cleaned[-1]` on an empty list raises `IndexError` in Python, modelled
by `none`.  Otherwise: append a synthetic infinite bracket carrying the
last rate when the last bracket is finite (lines 122-124), then run the
walk from `remaining = max(0.0, taxable)` and `lower_bound = 0`
(lines 126-142). -/
def compute_tax_progressive (taxable : ℚ) (brackets : List Bracket) :
    Option (ℚ × ℚ) :=
  match (cleanedOf brackets).getLast? with
  | none => none
  | some last =>
    let cleaned2 :=
      if last.up_to.isSome then cleanedOf brackets ++ [⟨none, last.rate⟩]
      else cleanedOf brackets
    some (walk cleaned2 (max 0 taxable) (some 0) 0 0)

/-- Sum of `(upper - lower) * rate / 100` over a bracket list, with the
lower bound telescoping from `l`: the tax due when every bracket is
filled over its full span.  (The `none` case is unreachable under
`AscFrom`.) -/
def fullTax : List Bracket → ℚ → ℚ
  | [], _ => 0
  | b :: rest, l =>
    match b.up_to with
    | some u => (u - l) * (b.rate / 100) + fullTax rest u
    | none => 0

/-- The last finite upper bound of a bracket list, telescoping from `l`. -/
def lastB : List Bracket → ℚ → ℚ
  | [], l => l
  | b :: rest, l => lastB rest (b.up_to.getD l)

/-- Every bracket has a finite bound, and the bounds ascend starting
from `l`. -/
def AscFrom : ℚ → List Bracket → Prop
  | _, [] => True
  | l, b :: rest => ∃ u, b.up_to = some u ∧ l ≤ u ∧ AscFrom u rest

/-! ## JSON layer: profile model and persistence -/

/-- JSON values as produced by `json.load` (tax_cal.py line 88):
the persisted profile store is a JSON object of profile records. -/
inductive JValue where
  | null
  | bool (b : Bool)
  | num (q : ℚ)
  | str (s : String)
  | arr (elems : List JValue)
  | obj (fields : List (String × JValue))

/-- Python `d.get(k)` on a dict: the value stored under `k`, if any.
(`json.load` gives objects with unique keys, so first match is the
stored binding.) -/
def alookup {V : Type} (m : List (String × V)) (k : String) : Option V :=
  match m with
  | [] => none
  | (k', v) :: rest => if k' = k then some v else alookup rest k

/-- Python `float(x)` applied to a decoded JSON value (lines 57-58):
numbers pass through, booleans become 0/1, numeric strings parse
(modelled for integer literals only — no theorem below feeds a string
to `float`), and everything else raises `TypeError`/`ValueError`. -/
def pyFloat : JValue → Except String ℚ
  | .num q => .ok q
  | .bool b => .ok (if b then 1 else 0)
  | .str s =>
    match s.trim.toInt? with
    | some n => .ok (n : ℚ)
    | none => .error "could not convert string to float"
  | _ => .error "float argument must be a string or a real number"

/-- One element of the `brackets` comprehension in `from_json`
(line 58): `Bracket(b.get("up_to"), float(b.get("rate", 0)))`.  The
element must be an object (otherwise Python raises `AttributeError` on
`b.get`).  Python keeps a non-numeric, non-null `up_to` unconverted and
only fails later inside `compute_tax_progressive`; the embedding
rejects it here — no theorem below depends on that corner. -/
def parseBracket : JValue → Except String Bracket
  | .obj fields =>
    match (alookup fields "up_to").getD .null with
    | .null => (pyFloat ((alookup fields "rate").getD (.num 0))).map
        (fun r => ⟨none, r⟩)
    | .num q => (pyFloat ((alookup fields "rate").getD (.num 0))).map
        (fun r => ⟨some q, r⟩)
    | _ => .error "up_to must be a number or null"
  | _ => .error "bracket record is not an object"

/-- Evaluate a fallible function over a list left to right, failing on
the first raised error — the evaluation order of Python's list/dict
comprehensions over `from_json`. -/
def mapE {α β : Type} (f : α → Except String β) : List α → Except String (List β)
  | [] => .ok []
  | a :: rest =>
    match f a with
    | .error e => .error e
    | .ok b =>
      match mapE f rest with
      | .error e => .error e
      | .ok bs => .ok (b :: bs)

/-- The `TaxProfile` dataclass (lines 36-41).  `name` and `mode` are
strings in every profile the program builds.  `brackets` defaults to
`None` in the dataclass, but every construction in the source passes an
actual list (lines 54-58, 71-81, 336, 339) and both reads guard with
`or []` (lines 49, 307), so the value space is `List Bracket`. -/
structure TaxProfile where
  name : String
  mode : String
  flat_rate : ℚ := 10
  brackets : List Bracket
deriving DecidableEq, Repr

/-- One bracket as serialised by `asdict(b)` inside `to_json` (line 49):
an object with the two dataclass fields in declaration order, with
`None`/infinity rendered as JSON `null`. -/
def bracketJson (b : Bracket) : JValue :=
  .obj [("up_to", match b.up_to with
                  | some q => .num q
                  | none => .null),
        ("rate", .num b.rate)]

/-- The method `TaxProfile.to_json` (lines 44-50): a JSON object with
the four fields in declaration order; `self.brackets or []` equals
`self.brackets` on the `List Bracket` value space. -/
def TaxProfile.to_json (p : TaxProfile) : JValue :=
  .obj [("name", .str p.name),
        ("mode", .str p.mode),
        ("flat_rate", .num p.flat_rate),
        ("brackets", .arr (p.brackets.map bracketJson))]

/-- The static method `TaxProfile.from_json` (lines 52-59).  Missing
keys fall back to the call-site defaults (`"Unnamed"`, `"flat"`,
`10.0`, `[]`); present values go through `float()` for `flat_rate` and
each bracket `rate`, which raises on non-numeric input.  Python would
keep a non-string `name`/`mode` value as-is; the program only ever
writes strings there (`to_json` serialises `str` fields) and the
embedding requires strings — no theorem below depends on non-string
names or modes. -/
def TaxProfile.from_json (j : JValue) : Except String TaxProfile :=
  match j with
  | .obj fields =>
    match (alookup fields "name").getD (.str "Unnamed"),
          (alookup fields "mode").getD (.str "flat") with
    | .str name, .str mode =>
      match pyFloat ((alookup fields "flat_rate").getD (.num 10)) with
      | .error e => .error e
      | .ok fr =>
        match (alookup fields "brackets").getD (.arr []) with
        | .arr items =>
          match mapE parseBracket items with
          | .error e => .error e
          | .ok brs => .ok ⟨name, mode, fr, brs⟩
        | _ => .error "brackets is not a list"
    | _, _ => .error "name and mode must be strings"
  | _ => .error "profile record is not an object"

/-- One Python dict assignment `d[k] = v`: overwrite in place when the
key already exists (keeping its position), else append at the end. -/
def dictInsert {K V : Type} [DecidableEq K] (m : List (K × V)) (k : K) (v : V) :
    List (K × V) :=
  if k ∈ m.map Prod.fst then
    m.map (fun kv => if kv.1 = k then (kv.1, v) else kv)
  else m ++ [(k, v)]

/-- A Python dict built by inserting key/value pairs left to right (the
semantics of a dict comprehension: a later duplicate key overwrites the
earlier value). -/
def dictOfPairs {K V : Type} [DecidableEq K] (pairs : List (K × V)) : List (K × V) :=
  pairs.foldl (fun m kv => dictInsert m kv.1 kv.2) []

/-- Python `d.get(k)` for a dict over an arbitrary key type (first
binding; the dicts this is applied to have `Nodup` keys). -/
def dget {K V : Type} [DecidableEq K] (m : List (K × V)) (k : K) : Option V :=
  match m with
  | [] => none
  | (k', v) :: rest => if k' = k then some v else dget rest k

/-- The function `load_profiles` (lines 87-92) on an existing store file
already decoded into its top-level key/record pairs:
`profiles = {name: TaxProfile.from_json(p) for name, p in raw.items()}`
(an exception from any record fails the whole load), then the re-keying
`return {v.name: v for v in profiles.values()}`. -/
def load_profiles_from (raw : List (String × JValue)) :
    Except String (List (String × TaxProfile)) :=
  match mapE (fun kv => (TaxProfile.from_json kv.2).map (fun p => (kv.1, p))) raw with
  | .error e => .error e
  | .ok pairs =>
    dictOfPairs (((dictOfPairs pairs).map Prod.snd).map (fun v => (v.name, v)))
      |> .ok

/-! ## Heap-level model of `compute_tax_progressive` (for the frame claim)

Python passes the bracket list by reference.  To state that the call
leaves the caller's list untouched we make object identity explicit: a
heap is a list of `Bracket` cells, the argument is a list of cell
addresses, and every allocation the source performs (`Bracket(...)` in
the comprehension at line 118, and the `cleaned.append(...)` cell at
line 124) appends fresh cells.  The source contains no store to an
existing cell and no mutation of the argument list (`sorted` copies,
`append` targets the local `cleaned`), so the embedding's final heap
extends the initial one. -/

/-- Read the bracket cells the argument's addresses point at, in order
(`for b in brackets` reads). -/
def readBrackets (heap : List Bracket) : List Nat → Option (List Bracket)
  | [] => some []
  | a :: rest =>
    match heap.get? a, readBrackets heap rest with
    | some b, some bs => some (b :: bs)
    | _, _ => none

/-- The heap-level run of `compute_tax_progressive` (lines 114-142): read
the argument cells, allocate the normalised copies (in comprehension
order) and, when the last sorted bracket is finite, the synthetic
terminal bracket; compute the same result as the value-level walk.
Returns `none` on an invalid address (no Python counterpart; the
argument addresses always exist) or on the empty-list `IndexError`. -/
def compute_tax_progressive_heap (taxable : ℚ) (heap : List Bracket)
    (addrs : List Nat) : Option ((ℚ × ℚ) × List Bracket) :=
  match readBrackets heap addrs with
  | none => none
  | some brs =>
    match compute_tax_progressive taxable brs with
    | none => none
    | some res =>
      some (res, heap ++ brs.map normalizeB ++
        (if ((cleanedOf brs).getLast?.map (fun b => b.up_to.isSome)).getD false
         then [⟨none, ((cleanedOf brs).getLast?.map Bracket.rate).getD 0⟩]
         else []))

-- sanity checks of the embedding against the spec's scenarios
example :
    compute_tax_progressive 60000
      [⟨some 10000, 5⟩, ⟨some 30000, 10⟩, ⟨some 80000, 20⟩, ⟨none, 30⟩] =
      some (8500, 20) := by
  norm_num [compute_tax_progressive, cleanedOf, List.insertionSort,
    List.orderedInsert, bLe, bndLe, normalizeB, walk, spanOf, max_def, min_def]

example :
    compute_tax_progressive 5000
      [⟨some 10000, 5⟩, ⟨some 30000, 10⟩, ⟨some 80000, 20⟩, ⟨none, 30⟩] =
      some (250, 5) := by
  norm_num [compute_tax_progressive, cleanedOf, List.insertionSort,
    List.orderedInsert, bLe, bndLe, normalizeB, walk, spanOf, max_def, min_def]

example : compute_tax_flat 60000 10 = (6000, 10) := by
  norm_num [compute_tax_flat, max_def]

example : compute_tax_progressive 60000 [] = none := rfl

example :
    TaxProfile.from_json (.obj []) = .ok ⟨"Unnamed", "flat", 10, []⟩ := rfl

example :
    TaxProfile.from_json (.obj [("flat_rate", .null)]) =
      .error "float argument must be a string or a real number" := rfl

example :
    load_profiles_from [("Wrong", TaxProfile.to_json ⟨"Right", "flat", 10, []⟩)] =
      .ok [("Right", ⟨"Right", "flat", 10, []⟩)] := rfl

/-! ## Lemmas about the span and the walk -/

theorem normalizeB_eq (b : Bracket) : normalizeB b = b := rfl

theorem map_normalizeB (l : List Bracket) : l.map normalizeB = l := by
  induction l with
  | nil => rfl
  | cons b rest ih => simp [normalizeB_eq, ih]

theorem mem_cleanedOf {b : Bracket} {brackets : List Bracket} :
    b ∈ cleanedOf brackets ↔ b ∈ brackets := by
  unfold cleanedOf
  rw [(List.perm_insertionSort bLe _).mem_iff, map_normalizeB]

theorem pairwise_cleanedOf (brackets : List Bracket) :
    List.Pairwise bLe (cleanedOf brackets) :=
  List.sorted_insertionSort bLe _

theorem spanOf_nonneg (r : ℚ) (lo up : Option ℚ) : 0 ≤ spanOf r lo up := by
  cases up <;> cases lo <;> simp [spanOf]

theorem spanOf_zero (lo up : Option ℚ) : spanOf 0 lo up = 0 := by
  cases up <;> cases lo <;> simp [spanOf]

theorem spanOf_le_self {r : ℚ} (h : 0 ≤ r) (lo up : Option ℚ) :
    spanOf r lo up ≤ r := by
  cases up <;> cases lo <;> simp [spanOf, h]

theorem spanOf_mono {x y : ℚ} (lo up : Option ℚ) (hxy : x ≤ y) :
    spanOf x lo up ≤ spanOf y lo up := by
  cases up <;> cases lo <;> simp only [spanOf] <;>
    first
      | exact le_refl 0
      | exact max_le_max le_rfl hxy
      | exact max_le_max le_rfl (min_le_min hxy le_rfl)

theorem sub_spanOf_mono {x y : ℚ} (lo up : Option ℚ) (h0 : 0 ≤ x) (hxy : x ≤ y) :
    x - spanOf x lo up ≤ y - spanOf y lo up := by
  have hy0 : 0 ≤ y := le_trans h0 hxy
  cases up <;> cases lo <;> simp only [spanOf]
  case none.none => rw [max_eq_right h0, max_eq_right hy0]; simp
  case none.some => rw [max_eq_right h0, max_eq_right hy0]; simp
  case some.none => simpa using hxy
  case some.some u l =>
    rcases le_total x (u - l) with h1 | h1 <;> rcases le_total y (u - l) with h2 | h2 <;>
      rcases le_total 0 (u - l) with h3 | h3 <;>
      simp [max_def, min_def, *] <;> first | (split_ifs <;> linarith) | linarith

theorem sub_spanOf_nonneg {x : ℚ} (lo up : Option ℚ) (h0 : 0 ≤ x) :
    0 ≤ x - spanOf x lo up :=
  sub_nonneg.mpr (spanOf_le_self h0 lo up)

theorem if_sub_span (r s : ℚ) (hs : 0 ≤ s) :
    (if 0 < s then r - s else r) = r - s := by
  split_ifs with h
  · rfl
  · have : s = 0 := le_antisymm (not_lt.mp h) hs
    rw [this, sub_zero]

theorem walk_zero (L : List Bracket) (lo : Option ℚ) (t m : ℚ) :
    walk L 0 lo t m = (t, m) := by
  cases L with
  | nil => rfl
  | cons b rest => simp [walk, spanOf_zero]

theorem walk_tax_ge : ∀ (L : List Bracket), (∀ b ∈ L, 0 ≤ b.rate) →
    ∀ (x : ℚ) (lo : Option ℚ) (t m : ℚ), 0 ≤ x → t ≤ (walk L x lo t m).1 := by
  intro L
  induction L with
  | nil => intro _ x lo t m _; simp [walk]
  | cons b rest ih =>
    intro hr x lo t m hx
    have hs0 : 0 ≤ spanOf x lo b.up_to := spanOf_nonneg x lo b.up_to
    have hrate : 0 ≤ b.rate := hr b (List.mem_cons_self b rest)
    have hmul : 0 ≤ spanOf x lo b.up_to * (b.rate / 100) := by positivity
    have hr' : ∀ c ∈ rest, 0 ≤ c.rate := fun c hc => hr c (List.mem_cons_of_mem b hc)
    simp only [walk]
    rw [if_sub_span x _ hs0]
    by_cases hbr : x - spanOf x lo b.up_to ≤ 0
    · rw [if_pos hbr]
      split_ifs with h1 <;> dsimp only <;> linarith
    · rw [if_neg hbr]
      have hx' : 0 ≤ x - spanOf x lo b.up_to := sub_spanOf_nonneg lo b.up_to hx
      refine le_trans ?_ (ih hr' (x - spanOf x lo b.up_to) b.up_to _ _ hx')
      split_ifs with h1 <;> linarith

theorem walk_tax_mono : ∀ (L : List Bracket), (∀ b ∈ L, 0 ≤ b.rate) →
    ∀ (x y : ℚ) (lo : Option ℚ) (t₁ t₂ m₁ m₂ : ℚ), 0 ≤ x → x ≤ y → t₁ ≤ t₂ →
      (walk L x lo t₁ m₁).1 ≤ (walk L y lo t₂ m₂).1 := by
  intro L
  induction L with
  | nil => intro _ x y lo t₁ t₂ m₁ m₂ _ _ ht; simpa [walk] using ht
  | cons b rest ih =>
    intro hr x y lo t₁ t₂ m₁ m₂ hx hxy ht
    have hr' : ∀ c ∈ rest, 0 ≤ c.rate := fun c hc => hr c (List.mem_cons_of_mem b hc)
    have hrate : 0 ≤ b.rate := hr b (List.mem_cons_self b rest)
    have hsx0 : 0 ≤ spanOf x lo b.up_to := spanOf_nonneg x lo b.up_to
    have hsy0 : 0 ≤ spanOf y lo b.up_to := spanOf_nonneg y lo b.up_to
    have hsxy : spanOf x lo b.up_to ≤ spanOf y lo b.up_to := spanOf_mono lo b.up_to hxy
    have hy : 0 ≤ y := le_trans hx hxy
    have hsub : x - spanOf x lo b.up_to ≤ y - spanOf y lo b.up_to :=
      sub_spanOf_mono lo b.up_to hx hxy
    have hsubx : 0 ≤ x - spanOf x lo b.up_to := sub_spanOf_nonneg lo b.up_to hx
    have hsuby : 0 ≤ y - spanOf y lo b.up_to := sub_spanOf_nonneg lo b.up_to hy
    have hAB : (if 0 < spanOf x lo b.up_to then t₁ + spanOf x lo b.up_to * (b.rate / 100) else t₁) ≤
        (if 0 < spanOf y lo b.up_to then t₂ + spanOf y lo b.up_to * (b.rate / 100) else t₂) := by
      split_ifs with h1 h2 h2
      · have : spanOf x lo b.up_to * (b.rate / 100) ≤ spanOf y lo b.up_to * (b.rate / 100) :=
          mul_le_mul_of_nonneg_right hsxy (by positivity)
        linarith
      · exact absurd (lt_of_lt_of_le h1 hsxy) h2
      · have : 0 ≤ spanOf y lo b.up_to * (b.rate / 100) := by positivity
        linarith
      · exact ht
    simp only [walk]
    rw [if_sub_span x _ hsx0, if_sub_span y _ hsy0]
    by_cases hby : y - spanOf y lo b.up_to ≤ 0
    · have hbx : x - spanOf x lo b.up_to ≤ 0 := le_trans hsub hby
      rw [if_pos hbx, if_pos hby]
      dsimp only
      exact hAB
    · rw [if_neg hby]
      by_cases hbx : x - spanOf x lo b.up_to ≤ 0
      · rw [if_pos hbx]
        dsimp only
        exact le_trans hAB (walk_tax_ge rest hr' _ b.up_to _ _ hsuby)
      · rw [if_neg hbx]
        exact ih hr' _ _ b.up_to _ _ _ _ hsubx hsub hAB

/-! ## Claim theorems: empty bracket list, flat calculator, monotonicity -/

/-- C1: the spec says an empty progressive bracket list yields
`totalTax = 0`, `marginalRate = 0`; in the code `cleaned[-1]` raises
`IndexError` on the empty list (line 123) before any walk runs, so the
call produces no result at all. -/
theorem compute_tax_progressive_empty (t : ℚ) :
    compute_tax_progressive t [] = none := rfl

/-- C5: the flat calculator returns `tax = income * rate / 100` for
non-negative income (and any rate), and returns `marginalRate = rate`
unconditionally. -/
theorem flat_invariant (income rate : ℚ) (h1 : 0 ≤ income) (h2 : 0 ≤ rate) :
    compute_tax_flat income rate = (income * (rate / 100), rate) ∧
    ∀ t r : ℚ, (compute_tax_flat t r).2 = r := by
  refine ⟨?_, fun t r => rfl⟩
  simp [compute_tax_flat, max_eq_right h1]

theorem flat_invariant_witness :
    compute_tax_flat 60000 10 = (60000 * ((10 : ℚ) / 100), 10) ∧
    ∀ t r : ℚ, (compute_tax_flat t r).2 = r :=
  flat_invariant 60000 10 (by norm_num) (by norm_num)

/-- C3: with a fixed bracket list whose rates are non-negative (the
`Bracket` data model's invariant), `totalTax` is non-decreasing in the
taxable income. -/
theorem progressive_monotone (brackets : List Bracket)
    (hr : ∀ b ∈ brackets, 0 ≤ b.rate) (x y : ℚ) (hxy : x ≤ y)
    (px py : ℚ × ℚ)
    (hx : compute_tax_progressive x brackets = some px)
    (hy : compute_tax_progressive y brackets = some py) :
    px.1 ≤ py.1 := by
  unfold compute_tax_progressive at hx hy
  cases hlast : (cleanedOf brackets).getLast? with
  | none => rw [hlast] at hx; exact absurd hx (by simp)
  | some last =>
    rw [hlast] at hx hy
    simp only [Option.some.injEq] at hx hy
    subst hx; subst hy
    have hmem : ∀ b ∈ (if last.up_to.isSome then
        cleanedOf brackets ++ [⟨none, last.rate⟩] else cleanedOf brackets),
        0 ≤ b.rate := by
      intro b hb
      have hlastrate : 0 ≤ last.rate :=
        hr last (mem_cleanedOf.mp (List.mem_of_getLast?_eq_some hlast))
      split_ifs at hb with hfin
      · rcases List.mem_append.mp hb with h | h
        · exact hr b (mem_cleanedOf.mp h)
        · rcases List.mem_singleton.mp h with rfl
          exact hlastrate
      · exact hr b (mem_cleanedOf.mp hb)
    exact walk_tax_mono _ hmem (max 0 x) (max 0 y) (some 0) 0 0 0 0
      (le_max_left 0 x) (max_le_max le_rfl hxy) le_rfl

theorem lastB_ge : ∀ {P : List Bracket} {l : ℚ}, AscFrom l P → l ≤ lastB P l := by
  intro P
  induction P with
  | nil => intro l _; simp [lastB]
  | cons b rest ih =>
    intro l h
    obtain ⟨u, hu, hlu, hrest⟩ := h
    simp only [lastB, hu, Option.getD_some]
    exact le_trans hlu (ih hrest)

theorem fullTax_zero : ∀ {P : List Bracket} {l : ℚ},
    AscFrom l P → lastB P l ≤ l → fullTax P l = 0 := by
  intro P
  induction P with
  | nil => intro l _ _; rfl
  | cons b rest ih =>
    intro l h hle
    obtain ⟨u, hu, hlu, hrest⟩ := h
    simp only [lastB, hu, Option.getD_some] at hle
    have h1 : u ≤ lastB rest u := lastB_ge hrest
    have h2 : u = l := le_antisymm (le_trans h1 hle) hlu
    simp only [fullTax, hu]
    rw [ih hrest (by linarith), h2]
    ring

/-- When the walk's remaining income is exactly the total capacity of an
ascending finite prefix `P`, the prefix is consumed span by span, the
walk stops with nothing left for the suffix `S`, and the collected tax
is exactly the full-span tax of `P`. -/
theorem walk_exact (S : List Bracket) : ∀ (P : List Bracket) (l t m : ℚ), AscFrom l P →
    (walk (P ++ S) (lastB P l - l) (some l) t m).1 = t + fullTax P l := by
  intro P
  induction P with
  | nil =>
    intro l t m _
    simp only [List.nil_append, lastB, sub_self, fullTax]
    rw [walk_zero]
    simp
  | cons b rest ih =>
    intro l t m h
    obtain ⟨u, hu, hlu, hrest⟩ := h
    have hur : u ≤ lastB rest u := lastB_ge hrest
    simp only [lastB, hu, Option.getD_some, List.cons_append]
    simp only [walk, hu]
    have hul : (0:ℚ) ≤ u - l := by linarith
    have hspan : spanOf (lastB rest u - l) (some l) (some u) = u - l := by
      simp only [spanOf]
      rw [min_eq_right (by linarith), max_eq_right hul]
    rw [hspan, if_sub_span _ _ hul]
    have hrw : lastB rest u - l - (u - l) = lastB rest u - u := by ring
    rw [hrw]
    have htot : (if 0 < u - l then t + (u - l) * (b.rate / 100) else t) =
        t + (u - l) * (b.rate / 100) := by
      split_ifs with hp
      · rfl
      · have h0 : u - l = 0 := le_antisymm (not_lt.mp hp) hul
        rw [h0]; ring
    by_cases hbr : lastB rest u - u ≤ 0
    · rw [if_pos hbr]
      dsimp only
      rw [htot]
      have h0 : fullTax rest u = 0 := fullTax_zero hrest (by linarith)
      simp only [fullTax, hu]
      rw [h0]; ring
    · rw [if_neg hbr]
      rw [ih u _ _ hrest, htot]
      simp only [fullTax, hu]
      ring

/-- When the walk's remaining income strictly exceeds the capacity of an
ascending finite prefix `P` and the list ends with an infinite bracket
at rate `r`, the excess is taxed entirely at `r`. -/
theorem walk_linear (r : ℚ) : ∀ (P : List Bracket) (l t m x : ℚ), AscFrom l P →
    lastB P l - l < x →
    (walk (P ++ [⟨none, r⟩]) x (some l) t m).1 =
      t + fullTax P l + (x - (lastB P l - l)) * (r / 100) := by
  intro P
  induction P with
  | nil =>
    intro l t m x _ hx
    simp only [lastB, sub_self] at hx ⊢
    simp only [List.nil_append, fullTax, walk, spanOf]
    rw [max_eq_right (le_of_lt hx), if_sub_span x x (le_of_lt hx), sub_self,
      if_pos le_rfl]
    dsimp only
    rw [if_pos hx]
    ring
  | cons b rest ih =>
    intro l t m x h hx
    obtain ⟨u, hu, hlu, hrest⟩ := h
    have hur : u ≤ lastB rest u := lastB_ge hrest
    simp only [lastB, hu, Option.getD_some, List.cons_append] at hx ⊢
    simp only [walk, hu]
    have hul : (0:ℚ) ≤ u - l := by linarith
    have hxul : u - l ≤ x := by linarith
    have hspan : spanOf x (some l) (some u) = u - l := by
      simp only [spanOf]
      rw [min_eq_right hxul, max_eq_right hul]
    rw [hspan, if_sub_span x _ hul]
    have hbr : ¬ (x - (u - l) ≤ 0) := by push_neg; linarith
    rw [if_neg hbr]
    rw [ih u _ _ (x - (u - l)) hrest (by linarith)]
    have htot : (if 0 < u - l then t + (u - l) * (b.rate / 100) else t) =
        t + (u - l) * (b.rate / 100) := by
      split_ifs with hp
      · rfl
      · have h0 : u - l = 0 := le_antisymm (not_lt.mp hp) hul
        rw [h0]; ring
    rw [htot]
    simp only [fullTax, hu]
    ring

theorem ascFrom_of_pairwise : ∀ (L : List Bracket) (l : ℚ), List.Pairwise bLe L →
    (∀ b ∈ L, b.up_to.isSome) → (∀ b ∈ L, ∀ v, b.up_to = some v → l ≤ v) →
    AscFrom l L := by
  intro L
  induction L with
  | nil => intro l _ _ _; trivial
  | cons b rest ih =>
    intro l hp hsome hge
    obtain ⟨u, hu⟩ := Option.isSome_iff_exists.mp (hsome b (List.mem_cons_self b rest))
    refine ⟨u, hu, hge b (List.mem_cons_self b rest) u hu, ?_⟩
    have hp' := List.pairwise_cons.mp hp
    refine ih u hp'.2 (fun c hc => hsome c (List.mem_cons_of_mem b hc)) ?_
    intro c hc v hv
    have hbc := hp'.1 c hc
    unfold bLe at hbc
    rw [hu, hv] at hbc
    exact hbc

theorem lastB_concat : ∀ (L : List Bracket) (b : Bracket) (l : ℚ),
    lastB (L ++ [b]) l = b.up_to.getD (lastB L l) := by
  intro L
  induction L with
  | nil => intro b l; rfl
  | cons c rest ih =>
    intro b l
    simp only [List.cons_append, lastB]
    exact ih b _

theorem length_cleanedOf (brackets : List Bracket) :
    (cleanedOf brackets).length = brackets.length := by
  unfold cleanedOf
  rw [List.length_insertionSort, map_normalizeB]

/-- The branch structure of `compute_tax_progressive` once the last
cleaned bracket is known. -/
theorem compute_eq_walk (brackets : List Bracket) (t : ℚ) (last : Bracket)
    (hlast : (cleanedOf brackets).getLast? = some last) :
    compute_tax_progressive t brackets =
      some (walk (if last.up_to.isSome then cleanedOf brackets ++ [⟨none, last.rate⟩]
        else cleanedOf brackets) (max 0 t) (some 0) 0 0) := by
  unfold compute_tax_progressive
  rw [hlast]

/-- C2: for a non-empty all-finite bracket list (bounds non-negative per
the data model), the walk runs on the sorted list extended by a
synthetic unbounded bracket carrying the last sorted bracket's rate, and
past the last finite bound `B` the total tax grows linearly at that
rate. -/
theorem progressive_terminal_linear (brackets : List Bracket)
    (hne : brackets ≠ [])
    (hfin : ∀ b ∈ brackets, b.up_to.isSome)
    (hnn : ∀ b ∈ brackets, 0 ≤ b.up_to.getD 0) :
    ∃ last B,
      (cleanedOf brackets).getLast? = some last ∧
      last.up_to = some B ∧
      (∀ t : ℚ, compute_tax_progressive t brackets =
        some (walk (cleanedOf brackets ++ [⟨none, last.rate⟩]) (max 0 t) (some 0) 0 0)) ∧
      (∀ x y : ℚ, B ≤ x → x ≤ y →
        ∃ px py, compute_tax_progressive x brackets = some px ∧
          compute_tax_progressive y brackets = some py ∧
          py.1 = px.1 + (y - x) * (last.rate / 100)) := by
  have hclne : cleanedOf brackets ≠ [] := by
    intro hc
    exact hne (List.length_eq_zero.mp (by rw [← length_cleanedOf, hc]; rfl))
  obtain ⟨last, hlast⟩ := Option.isSome_iff_exists.mp (List.getLast?_isSome.mpr hclne)
  have hlastmem : last ∈ brackets :=
    mem_cleanedOf.mp (List.mem_of_getLast?_eq_some hlast)
  obtain ⟨B, hB⟩ := Option.isSome_iff_exists.mp (hfin last hlastmem)
  have hB0 : 0 ≤ B := by
    have := hnn last hlastmem
    rwa [hB, Option.getD_some] at this
  have hasc : AscFrom 0 (cleanedOf brackets) :=
    ascFrom_of_pairwise _ 0 (pairwise_cleanedOf brackets)
      (fun b hb => hfin b (mem_cleanedOf.mp hb))
      (fun b hb v hv => by
        have := hnn b (mem_cleanedOf.mp hb)
        rwa [hv, Option.getD_some] at this)
  have hlastB : lastB (cleanedOf brackets) 0 = B := by
    obtain ⟨ys, hys⟩ := List.getLast?_eq_some_iff.mp hlast
    rw [hys, lastB_concat, hB, Option.getD_some]
  have hcomp : ∀ t : ℚ, compute_tax_progressive t brackets =
      some (walk (cleanedOf brackets ++ [⟨none, last.rate⟩]) (max 0 t) (some 0) 0 0) := by
    intro t
    rw [compute_eq_walk brackets t last hlast, hB]
    rfl
  have hval : ∀ x : ℚ, B ≤ x →
      (walk (cleanedOf brackets ++ [⟨none, last.rate⟩]) (max 0 x) (some 0) 0 0).1 =
        fullTax (cleanedOf brackets) 0 + (x - B) * (last.rate / 100) := by
    intro x hx
    have hx0 : 0 ≤ x := le_trans hB0 hx
    rw [max_eq_right hx0]
    rcases eq_or_lt_of_le hx with heq | hlt
    · have hEx := walk_exact [⟨none, last.rate⟩] (cleanedOf brackets) 0 0 0 hasc
      rw [hlastB, sub_zero] at hEx
      rw [← heq, hEx]
      ring
    · have hLin := walk_linear last.rate (cleanedOf brackets) 0 0 0 x hasc
        (by rw [hlastB, sub_zero]; exact hlt)
      rw [hlastB, sub_zero] at hLin
      rw [hLin]
      ring
  refine ⟨last, B, hlast, hB, hcomp, ?_⟩
  intro x y hx hxy
  refine ⟨_, _, hcomp x, hcomp y, ?_⟩
  rw [hval x hx, hval y (le_trans hx hxy)]
  ring

theorem progressive_terminal_linear_witness :
    ∃ last B,
      (cleanedOf [⟨some 10000, 5⟩, ⟨some 30000, 10⟩, ⟨some 80000, 20⟩]).getLast? = some last ∧
      last.up_to = some B ∧
      (∀ t : ℚ, compute_tax_progressive t [⟨some 10000, 5⟩, ⟨some 30000, 10⟩, ⟨some 80000, 20⟩] =
        some (walk (cleanedOf [⟨some 10000, 5⟩, ⟨some 30000, 10⟩, ⟨some 80000, 20⟩] ++
          [⟨none, last.rate⟩]) (max 0 t) (some 0) 0 0)) ∧
      (∀ x y : ℚ, B ≤ x → x ≤ y →
        ∃ px py, compute_tax_progressive x [⟨some 10000, 5⟩, ⟨some 30000, 10⟩, ⟨some 80000, 20⟩] = some px ∧
          compute_tax_progressive y [⟨some 10000, 5⟩, ⟨some 30000, 10⟩, ⟨some 80000, 20⟩] = some py ∧
          py.1 = px.1 + (y - x) * (last.rate / 100)) :=
  progressive_terminal_linear [⟨some 10000, 5⟩, ⟨some 30000, 10⟩, ⟨some 80000, 20⟩]
    (by decide) (by decide) (by norm_num)

/-- Finiteness of every bracket in the sorted prefix ending at a finite
bracket: a `none` bound sorts last, so nothing before position `i` can
be unbounded. -/
theorem prefix_finite (L : List Bracket) (hp : List.Pairwise bLe L)
    (i : ℕ) (hi : i < L.length) (u : ℚ) (hu : (L.get ⟨i, hi⟩).up_to = some u) :
    ∀ b ∈ L.take (i + 1), b.up_to.isSome := by
  intro b hb
  rw [List.get_eq_getElem] at hu
  obtain ⟨j, hj, hbj⟩ := List.mem_iff_getElem.mp hb
  have hj2 : j < i + 1 := by
    rw [List.length_take] at hj
    exact lt_of_lt_of_le hj (min_le_left _ _)
  have hjL : j < L.length := by
    rw [List.length_take] at hj
    exact lt_of_lt_of_le hj (min_le_right _ _)
  have hgetj : L[j] = b := by rw [← hbj, List.getElem_take]
  rcases Nat.lt_or_ge j i with hji | hji
  · have hrel := List.pairwise_iff_getElem.mp hp j i hjL hi hji
    unfold bLe at hrel
    rw [hu] at hrel
    rw [← hgetj]
    cases hc : L[j].up_to with
    | none => rw [hc] at hrel; exact absurd hrel (by simp [bndLe])
    | some v => rfl
  · have hji' : j = i := by omega
    subst hji'
    have hu2 : (L.get ⟨j, hjL⟩).up_to = some u := hu
    have hres : (L.get ⟨j, hjL⟩).up_to.isSome = true := by rw [hu2]; rfl
    rw [← hgetj]
    exact hres

/-- C4: at a taxable income equal to the upper bound of the bracket at
position `i` of the sorted schedule (bounds non-negative per the data
model), the total tax is exactly the sum of the full-span taxes of that
bracket and all lower ones — no gap and no double count at the
boundary. -/
theorem progressive_boundary_exact (brackets : List Bracket)
    (hnn : ∀ b ∈ brackets, 0 ≤ b.up_to.getD 0)
    (i : ℕ) (hi : i < (cleanedOf brackets).length) (u : ℚ)
    (hu : ((cleanedOf brackets).get ⟨i, hi⟩).up_to = some u) :
    ∃ mr, compute_tax_progressive u brackets =
      some (fullTax ((cleanedOf brackets).take (i + 1)) 0, mr) := by
  have hp : List.Pairwise bLe (cleanedOf brackets) := pairwise_cleanedOf brackets
  have hsome : ∀ b ∈ (cleanedOf brackets).take (i + 1), b.up_to.isSome :=
    prefix_finite _ hp i hi u hu
  have hasc : AscFrom 0 ((cleanedOf brackets).take (i + 1)) :=
    ascFrom_of_pairwise _ 0 (hp.sublist (List.take_sublist _ _)) hsome
      (fun b hb v hv => by
        have := hnn b (mem_cleanedOf.mp (List.mem_of_mem_take hb))
        rwa [hv, Option.getD_some] at this)
  rw [List.get_eq_getElem] at hu
  have hlastB : lastB ((cleanedOf brackets).take (i + 1)) 0 = u := by
    rw [List.take_succ, List.getElem?_eq_getElem hi, Option.toList_some,
      lastB_concat, hu, Option.getD_some]
  have hu0 : 0 ≤ u := by
    have := hnn ((cleanedOf brackets)[i])
      (mem_cleanedOf.mp (List.getElem_mem hi))
    rwa [hu, Option.getD_some] at this
  have hclne : cleanedOf brackets ≠ [] := by
    intro hc
    rw [hc] at hi
    exact absurd hi (by simp)
  obtain ⟨last, hlast⟩ := Option.isSome_iff_exists.mp (List.getLast?_isSome.mpr hclne)
  rw [compute_eq_walk brackets u last hlast]
  by_cases hfin : last.up_to.isSome
  · rw [if_pos hfin]
    have hsplit : cleanedOf brackets ++ [(⟨none, last.rate⟩ : Bracket)] =
        (cleanedOf brackets).take (i + 1) ++
          ((cleanedOf brackets).drop (i + 1) ++ [⟨none, last.rate⟩]) := by
      rw [← List.append_assoc, List.take_append_drop]
    have hEx := walk_exact ((cleanedOf brackets).drop (i + 1) ++ [⟨none, last.rate⟩])
      ((cleanedOf brackets).take (i + 1)) 0 0 0 hasc
    rw [hlastB, sub_zero, zero_add] at hEx
    have hEx2 : (walk (cleanedOf brackets ++ [⟨none, last.rate⟩]) u (some 0) 0 0).1 =
        fullTax ((cleanedOf brackets).take (i + 1)) 0 := by
      conv_lhs => rw [hsplit]
      exact hEx
    refine ⟨(walk (cleanedOf brackets ++ [⟨none, last.rate⟩]) (max 0 u)
      (some 0) 0 0).2, ?_⟩
    rw [max_eq_right hu0]
    exact congrArg some (by rw [← hEx2])
  · rw [if_neg hfin]
    have hsplit : cleanedOf brackets =
        (cleanedOf brackets).take (i + 1) ++ (cleanedOf brackets).drop (i + 1) :=
      (List.take_append_drop _ _).symm
    have hEx := walk_exact ((cleanedOf brackets).drop (i + 1))
      ((cleanedOf brackets).take (i + 1)) 0 0 0 hasc
    rw [hlastB, sub_zero, zero_add] at hEx
    have hEx2 : (walk (cleanedOf brackets) u (some 0) 0 0).1 =
        fullTax ((cleanedOf brackets).take (i + 1)) 0 := by
      conv_lhs => rw [hsplit]
      exact hEx
    refine ⟨(walk (cleanedOf brackets) (max 0 u) (some 0) 0 0).2, ?_⟩
    rw [max_eq_right hu0]
    exact congrArg some (by rw [← hEx2])

theorem progressive_boundary_exact_witness :
    ∃ mr, compute_tax_progressive 30000
        [⟨some 10000, 5⟩, ⟨some 30000, 10⟩, ⟨some 80000, 20⟩, ⟨none, 30⟩] =
      some (fullTax ((cleanedOf
        [⟨some 10000, 5⟩, ⟨some 30000, 10⟩, ⟨some 80000, 20⟩, ⟨none, 30⟩]).take (1 + 1)) 0, mr) :=
  progressive_boundary_exact
    [⟨some 10000, 5⟩, ⟨some 30000, 10⟩, ⟨some 80000, 20⟩, ⟨none, 30⟩]
    (by norm_num) 1
    (by norm_num [cleanedOf, List.insertionSort, List.orderedInsert, bLe, bndLe, normalizeB])
    30000
    (by norm_num [cleanedOf, List.insertionSort, List.orderedInsert, bLe, bndLe, normalizeB])

theorem progressive_monotone_witness : ((250 : ℚ), (5 : ℚ)).1 ≤ ((8500 : ℚ), (20 : ℚ)).1 :=
  progressive_monotone
    [⟨some 10000, 5⟩, ⟨some 30000, 10⟩, ⟨some 80000, 20⟩, ⟨none, 30⟩]
    (by decide) 5000 60000 (by norm_num) (250, 5) (8500, 20)
    (by norm_num [compute_tax_progressive, cleanedOf, List.insertionSort,
      List.orderedInsert, bLe, bndLe, normalizeB, walk, spanOf, max_def, min_def])
    (by norm_num [compute_tax_progressive, cleanedOf, List.insertionSort,
      List.orderedInsert, bLe, bndLe, normalizeB, walk, spanOf, max_def, min_def])

/-! ## Serialisation round-trip and deserialisation defaults -/

theorem parseBracket_bracketJson (b : Bracket) :
    parseBracket (bracketJson b) = .ok b := by
  obtain ⟨up, rate⟩ := b
  cases up <;> rfl

theorem mapE_parseBracket (l : List Bracket) :
    mapE parseBracket (l.map bracketJson) = .ok l := by
  induction l with
  | nil => rfl
  | cons b rest ih =>
    simp only [List.map_cons, mapE, parseBracket_bracketJson, ih]

/-- C6: serialising any profile and deserialising the result restores it
exactly — same name, mode, flat rate, and brackets in order. -/
theorem to_json_from_json_roundtrip (p : TaxProfile) :
    TaxProfile.from_json p.to_json = .ok p := by
  obtain ⟨name, mode, fr, brs⟩ := p
  have h1 : TaxProfile.from_json (TaxProfile.to_json ⟨name, mode, fr, brs⟩) =
      (match mapE parseBracket (brs.map bracketJson) with
        | .error e => .error e
        | .ok bs => .ok (⟨name, mode, fr, bs⟩ : TaxProfile)) := rfl
  rw [h1, mapE_parseBracket]

/-- C8 counterexample: a record whose `flat_rate` field is present but
malformed (`null`) makes `from_json` raise (`float(None)` is a
`TypeError` in Python) instead of falling back to the default, so
deserialisation is not total. -/
theorem from_json_malformed_raises :
    TaxProfile.from_json (.obj [("flat_rate", JValue.null)]) =
      .error "float argument must be a string or a real number" := rfl

/-- Definitional unfolding of `from_json` on an object record: the
result depends only on the four looked-up values with their `d.get`
defaults. -/
theorem from_json_obj (fields : List (String × JValue)) :
    TaxProfile.from_json (.obj fields) =
      (match (alookup fields "name").getD (.str "Unnamed"),
             (alookup fields "mode").getD (.str "flat") with
        | .str name, .str mode =>
          (match pyFloat ((alookup fields "flat_rate").getD (.num 10)) with
            | .error e => .error e
            | .ok fr =>
              (match (alookup fields "brackets").getD (.arr []) with
                | .arr items =>
                  (match mapE parseBracket items with
                    | .error e => .error e
                    | .ok brs => .ok (⟨name, mode, fr, brs⟩ : TaxProfile))
                | _ => .error "brackets is not a list"))
        | _, _ => .error "name and mode must be strings") := rfl

theorem from_json_ok_inversion (fields : List (String × JValue)) (p : TaxProfile)
    (h : TaxProfile.from_json (.obj fields) = .ok p) :
    ∃ nm md items,
      (alookup fields "name").getD (.str "Unnamed") = .str nm ∧
      (alookup fields "mode").getD (.str "flat") = .str md ∧
      pyFloat ((alookup fields "flat_rate").getD (.num 10)) = .ok p.flat_rate ∧
      (alookup fields "brackets").getD (.arr []) = .arr items ∧
      mapE parseBracket items = .ok p.brackets ∧
      p.name = nm ∧ p.mode = md := by
  rw [from_json_obj] at h
  cases hn : (alookup fields "name").getD (.str "Unnamed") with
  | str nm =>
    rw [hn] at h
    cases hm : (alookup fields "mode").getD (.str "flat") with
    | str md =>
      rw [hm] at h
      cases hf : pyFloat ((alookup fields "flat_rate").getD (.num 10)) with
      | error e => rw [hf] at h; exact Except.noConfusion h
      | ok fr =>
        rw [hf] at h
        cases hb : (alookup fields "brackets").getD (.arr []) with
        | arr items =>
          rw [hb] at h
          have h4 : (match mapE parseBracket items with
              | .error e => Except.error e
              | .ok brs =>
                Except.ok (⟨nm, md, fr, brs⟩ : TaxProfile)) = Except.ok p := h
          cases hE : mapE parseBracket items with
          | error e => rw [hE] at h4; exact Except.noConfusion h4
          | ok brs =>
            rw [hE] at h4
            have h' : Except.ok (⟨nm, md, fr, brs⟩ : TaxProfile) = Except.ok p := h4
            have hp : (⟨nm, md, fr, brs⟩ : TaxProfile) = p := by injection h'
            subst hp
            exact ⟨nm, md, items, rfl, rfl, rfl, rfl, hE, rfl, rfl⟩
        | null => rw [hb] at h; exact Except.noConfusion h
        | bool b => rw [hb] at h; exact Except.noConfusion h
        | num q => rw [hb] at h; exact Except.noConfusion h
        | str s => rw [hb] at h; exact Except.noConfusion h
        | obj o => rw [hb] at h; exact Except.noConfusion h
    | null => rw [hm] at h; exact Except.noConfusion h
    | bool b => rw [hm] at h; exact Except.noConfusion h
    | num q => rw [hm] at h; exact Except.noConfusion h
    | arr l => rw [hm] at h; exact Except.noConfusion h
    | obj o => rw [hm] at h; exact Except.noConfusion h
  | null => rw [hn] at h; exact Except.noConfusion h
  | bool b => rw [hn] at h; exact Except.noConfusion h
  | num q => rw [hn] at h; exact Except.noConfusion h
  | arr l => rw [hn] at h; exact Except.noConfusion h
  | obj o => rw [hn] at h; exact Except.noConfusion h

/-- C8 amended: for every persisted record, each documented field that
is missing falls back to its default in the deserialised profile (name
`"Unnamed"`, mode `"flat"`, flat rate `10`, brackets `[]`); a record
with all four documented fields missing (whatever other keys it has)
loads successfully as the all-defaults profile; but deserialisation is
not total — a present malformed numeric field, here a bracket `rate` of
`null`, raises and fails the whole record instead of defaulting. -/
theorem from_json_defaults_missing :
    (∀ (fields : List (String × JValue)) (p : TaxProfile),
      TaxProfile.from_json (.obj fields) = .ok p →
        (alookup fields "name" = none → p.name = "Unnamed") ∧
        (alookup fields "mode" = none → p.mode = "flat") ∧
        (alookup fields "flat_rate" = none → p.flat_rate = 10) ∧
        (alookup fields "brackets" = none → p.brackets = [])) ∧
    (∀ fields : List (String × JValue),
      alookup fields "name" = none → alookup fields "mode" = none →
      alookup fields "flat_rate" = none → alookup fields "brackets" = none →
      TaxProfile.from_json (.obj fields) = .ok ⟨"Unnamed", "flat", 10, []⟩) ∧
    TaxProfile.from_json (.obj [("brackets", .arr [.obj [("rate", JValue.null)]])]) =
      .error "float argument must be a string or a real number" := by
  refine ⟨?_, ?_, rfl⟩
  · intro fields p h
    obtain ⟨nm, md, items, hn, hm, hf, hb, hE, hpn, hpm⟩ :=
      from_json_ok_inversion fields p h
    refine ⟨?_, ?_, ?_, ?_⟩
    · intro hmiss
      rw [hmiss, Option.getD_none] at hn
      injection hn with hn'
      rw [hpn]
      exact hn'.symm
    · intro hmiss
      rw [hmiss, Option.getD_none] at hm
      injection hm with hm'
      rw [hpm]
      exact hm'.symm
    · intro hmiss
      rw [hmiss, Option.getD_none] at hf
      have hf' : (Except.ok (10 : ℚ) : Except String ℚ) = .ok p.flat_rate := hf
      injection hf' with h10
      exact h10.symm
    · intro hmiss
      rw [hmiss, Option.getD_none] at hb
      injection hb with hb'
      rw [← hb'] at hE
      have hE' : (Except.ok ([] : List Bracket) : Except String (List Bracket)) =
          .ok p.brackets := hE
      injection hE' with hE2
      exact hE2.symm
  · intro fields h1 h2 h3 h4
    rw [from_json_obj, h1, h2, h3, h4]
    rfl

theorem from_json_defaults_missing_witness :
    (TaxProfile.mk "X" "flat" 10 []).mode = "flat" ∧
    TaxProfile.from_json (.obj [("ignored", JValue.bool true)]) =
      .ok ⟨"Unnamed", "flat", 10, []⟩ :=
  ⟨(from_json_defaults_missing.1 [("name", .str "X")] ⟨"X", "flat", 10, []⟩ rfl).2.1 rfl,
    from_json_defaults_missing.2.1 [("ignored", JValue.bool true)] rfl rfl rfl rfl⟩

/-! ## The profile store: re-keying and duplicate names -/

theorem mem_dictInsert {K V : Type} [DecidableEq K] {m : List (K × V)} {k : K} {v : V}
    {p : K × V} (h : p ∈ dictInsert m k v) : p ∈ m ∨ p = (k, v) := by
  unfold dictInsert at h
  split_ifs at h with hmem
  · obtain ⟨q, hq, hpq⟩ := List.mem_map.mp h
    by_cases hqk : q.1 = k
    · right
      rw [if_pos hqk] at hpq
      rw [← hpq, hqk]
    · left
      rw [if_neg hqk] at hpq
      rw [← hpq]
      exact hq
  · rcases List.mem_append.mp h with h1 | h1
    · exact Or.inl h1
    · exact Or.inr (List.mem_singleton.mp h1)

theorem mem_dictOfPairs {K V : Type} [DecidableEq K] {pairs : List (K × V)} {p : K × V}
    (h : p ∈ dictOfPairs pairs) : p ∈ pairs := by
  suffices haux : ∀ (pairs m : List (K × V)) (p : K × V),
      p ∈ pairs.foldl (fun m kv => dictInsert m kv.1 kv.2) m → p ∈ m ∨ p ∈ pairs by
    rcases haux pairs [] p h with h1 | h1
    · exact absurd h1 (List.not_mem_nil p)
    · exact h1
  intro pairs
  induction pairs with
  | nil => intro m p h; exact Or.inl h
  | cons kv rest ih =>
    intro m p h
    rcases ih (dictInsert m kv.1 kv.2) p h with h1 | h1
    · rcases mem_dictInsert h1 with h2 | h2
      · exact Or.inl h2
      · right
        rw [h2, Prod.mk.eta]
        exact List.mem_cons_self kv rest
    · exact Or.inr (List.mem_cons_of_mem kv h1)

/-- C7: whatever the literal keys of the persisted store were, every key
of the loaded mapping equals its profile's own `name` field (the
re-keying comprehension `return {v.name: v for v in profiles.values()}`). -/
theorem load_profiles_rekeys (raw : List (String × JValue))
    (m : List (String × TaxProfile)) (h : load_profiles_from raw = .ok m) :
    ∀ k v, (k, v) ∈ m → k = v.name := by
  intro k v hmem
  unfold load_profiles_from at h
  cases hme : mapE (fun kv => (TaxProfile.from_json kv.2).map (fun p => (kv.1, p))) raw with
  | error e => rw [hme] at h; exact absurd h (by simp)
  | ok pairs =>
    rw [hme] at h
    simp only [Except.ok.injEq] at h
    subst h
    obtain ⟨v', hv', heq⟩ := List.mem_map.mp (mem_dictOfPairs hmem)
    obtain ⟨hk, hveq⟩ := Prod.mk.injEq _ _ _ _ |>.mp heq
    rw [← hk, hveq]

theorem load_profiles_rekeys_witness :
    "Right" = (TaxProfile.mk "Right" "flat" 10 []).name :=
  load_profiles_rekeys [("Wrong", TaxProfile.to_json ⟨"Right", "flat", 10, []⟩)]
    [("Right", ⟨"Right", "flat", 10, []⟩)] rfl "Right" ⟨"Right", "flat", 10, []⟩
    (List.mem_singleton.mpr rfl)

theorem dget_update {K V : Type} [DecidableEq K] :
    ∀ (m : List (K × V)) (k : K) (v : V), k ∈ m.map Prod.fst →
      dget (m.map (fun kv => if kv.1 = k then (kv.1, v) else kv)) k = some v := by
  intro m
  induction m with
  | nil => intro k v h; simp at h
  | cons q rest ih =>
    obtain ⟨qk, qv⟩ := q
    intro k v h
    simp only [List.map_cons]
    by_cases hq : (qk, qv).1 = k
    · rw [if_pos hq]
      simp only [dget]
      rw [if_pos hq]
    · rw [if_neg hq]
      simp only [dget]
      rw [if_neg hq]
      have h' : k = qk ∨ k ∈ List.map Prod.fst rest := by
        simpa only [List.map_cons, List.mem_cons] using h
      rcases h' with h1 | h1
      · exact absurd h1.symm hq
      · exact ih k v h1

theorem dget_append_last {K V : Type} [DecidableEq K] :
    ∀ (m : List (K × V)) (k : K) (v : V), k ∉ m.map Prod.fst →
      dget (m ++ [(k, v)]) k = some v := by
  intro m
  induction m with
  | nil => intro k v _; simp [dget]
  | cons q rest ih =>
    obtain ⟨qk, qv⟩ := q
    intro k v h
    have hq : ¬ (qk = k) := by
      intro hc
      exact h (by simp [hc])
    simp only [List.cons_append, dget]
    rw [if_neg hq]
    refine ih k v (fun hc => h ?_)
    simp only [List.map_cons, List.mem_cons]
    exact Or.inr hc

theorem dget_dictInsert_self {K V : Type} [DecidableEq K] (m : List (K × V)) (k : K) (v : V) :
    dget (dictInsert m k v) k = some v := by
  unfold dictInsert
  split_ifs with hmem
  · exact dget_update m k v hmem
  · exact dget_append_last m k v hmem

theorem dget_update_ne {K V : Type} [DecidableEq K] :
    ∀ (m : List (K × V)) (k k' : K) (v : V), k ≠ k' →
      dget (m.map (fun kv => if kv.1 = k then (kv.1, v) else kv)) k' = dget m k' := by
  intro m
  induction m with
  | nil => intro k k' v _; rfl
  | cons q rest ih =>
    obtain ⟨qk, qv⟩ := q
    intro k k' v hne
    simp only [List.map_cons]
    by_cases hq : (qk, qv).1 = k
    · have hq' : ¬ (qk = k') := by
        intro hc
        rw [← hc] at hne
        exact hne (hq.symm)
      rw [if_pos hq]
      simp only [dget]
      rw [if_neg hq', if_neg hq']
      exact ih k k' v hne
    · rw [if_neg hq]
      simp only [dget]
      by_cases hq' : qk = k'
      · rw [if_pos hq', if_pos hq']
      · rw [if_neg hq', if_neg hq']
        exact ih k k' v hne

theorem dget_append_ne {K V : Type} [DecidableEq K] :
    ∀ (m : List (K × V)) (k k' : K) (v : V), k ≠ k' →
      dget (m ++ [(k, v)]) k' = dget m k' := by
  intro m
  induction m with
  | nil => intro k k' v hne; simp [dget, hne]
  | cons q rest ih =>
    obtain ⟨qk, qv⟩ := q
    intro k k' v hne
    simp only [List.cons_append, dget]
    by_cases hq : qk = k'
    · rw [if_pos hq, if_pos hq]
    · rw [if_neg hq, if_neg hq]
      exact ih k k' v hne

theorem dget_dictInsert_ne {K V : Type} [DecidableEq K] (m : List (K × V)) (k k' : K)
    (v : V) (hne : k ≠ k') : dget (dictInsert m k v) k' = dget m k' := by
  unfold dictInsert
  split_ifs with hmem
  · exact dget_update_ne m k k' v hne
  · exact dget_append_ne m k k' v hne

theorem dget_foldl {K V : Type} [DecidableEq K] :
    ∀ (pairs m : List (K × V)) (k : K),
      dget (pairs.foldl (fun m kv => dictInsert m kv.1 kv.2) m) k =
        (match (pairs.filter (fun p => decide (p.1 = k))).getLast? with
          | some p => some p.2
          | none => dget m k) := by
  intro pairs
  induction pairs with
  | nil => intro m k; rfl
  | cons q rest ih =>
    intro m k
    simp only [List.foldl_cons]
    rw [ih (dictInsert m q.1 q.2) k]
    by_cases hq : q.1 = k
    · rw [List.filter_cons_of_pos (by simpa using hq)]
      cases hrest : (rest.filter (fun p => decide (p.1 = k))).getLast? with
      | some p =>
        obtain ⟨ys, hys⟩ := List.getLast?_eq_some_iff.mp hrest
        rw [hys, ← List.cons_append, List.getLast?_concat]
      | none =>
        have hfr : rest.filter (fun p => decide (p.1 = k)) = [] :=
          List.getLast?_eq_none_iff.mp hrest
        rw [hfr]
        simp only [List.getLast?_singleton]
        rw [← hq]
        exact dget_dictInsert_self m q.1 q.2
    · rw [List.filter_cons_of_neg (by simpa using hq)]
      cases hrest : (rest.filter (fun p => decide (p.1 = k))).getLast? with
      | some p => rfl
      | none => exact dget_dictInsert_ne m q.1 k q.2 hq

theorem keys_dictInsert {K V : Type} [DecidableEq K] (m : List (K × V)) (k : K) (v : V) :
    (dictInsert m k v).map Prod.fst =
      if k ∈ m.map Prod.fst then m.map Prod.fst else m.map Prod.fst ++ [k] := by
  unfold dictInsert
  split_ifs with hmem
  · rw [List.map_map]
    refine List.map_congr_left ?_
    intro q _
    simp only [Function.comp]
    split_ifs with h
    · rfl
    · rfl
  · simp

theorem keys_nodup_dictInsert {K V : Type} [DecidableEq K] (m : List (K × V)) (k : K)
    (v : V) (h : (m.map Prod.fst).Nodup) : ((dictInsert m k v).map Prod.fst).Nodup := by
  rw [keys_dictInsert]
  split_ifs with hmem
  · exact h
  · exact List.Nodup.append h (List.nodup_singleton k)
      (fun a ha hb => hmem (by rw [← List.mem_singleton.mp hb]; exact ha))

theorem keys_nodup_dictOfPairs {K V : Type} [DecidableEq K] (pairs : List (K × V)) :
    ((dictOfPairs pairs).map Prod.fst).Nodup := by
  suffices haux : ∀ (pairs m : List (K × V)), (m.map Prod.fst).Nodup →
      ((pairs.foldl (fun m kv => dictInsert m kv.1 kv.2) m).map Prod.fst).Nodup from
    haux pairs [] (by simp)
  intro pairs
  induction pairs with
  | nil => intro m h; exact h
  | cons kv rest ih =>
    intro m h
    exact ih _ (keys_nodup_dictInsert m kv.1 kv.2 h)

theorem foldl_dictInsert_of_nodup {K V : Type} [DecidableEq K] :
    ∀ (pairs m : List (K × V)), ((m ++ pairs).map Prod.fst).Nodup →
      pairs.foldl (fun m kv => dictInsert m kv.1 kv.2) m = m ++ pairs := by
  intro pairs
  induction pairs with
  | nil => intro m _; simp
  | cons q rest ih =>
    intro m h
    simp only [List.foldl_cons]
    have hknotin : q.1 ∉ m.map Prod.fst := by
      rw [List.map_append] at h
      intro hc
      exact (List.nodup_append.mp h).2.2 hc (by simp)
    have hins : dictInsert m q.1 q.2 = m ++ [q] := by
      unfold dictInsert
      rw [if_neg hknotin]
    rw [hins, ih (m ++ [q]) (by simpa [List.append_assoc] using h)]
    simp

theorem dictOfPairs_of_nodupKeys {K V : Type} [DecidableEq K] (pairs : List (K × V))
    (h : (pairs.map Prod.fst).Nodup) : dictOfPairs pairs = pairs := by
  unfold dictOfPairs
  rw [foldl_dictInsert_of_nodup pairs [] (by simpa using h)]
  simp

theorem mapE_pair :
    ∀ (raw : List (String × JValue)) (pairs : List (String × TaxProfile)),
      mapE (fun kv => (TaxProfile.from_json kv.2).map (fun p => (kv.1, p))) raw = .ok pairs →
      mapE (fun kv => TaxProfile.from_json kv.2) raw = .ok (pairs.map Prod.snd) ∧
        pairs.map Prod.fst = raw.map Prod.fst := by
  intro raw
  induction raw with
  | nil =>
    intro pairs h
    simp only [mapE, Except.ok.injEq] at h
    subst h
    exact ⟨rfl, rfl⟩
  | cons kv rest ih =>
    intro pairs h
    simp only [mapE] at h ⊢
    cases hf : TaxProfile.from_json kv.2 with
    | error e =>
      rw [hf] at h
      rw [show Except.map (fun p => ((kv.1 : String), p))
          (Except.error e : Except String TaxProfile) = Except.error e from rfl] at h
      exact absurd h (by simp)
    | ok p =>
      rw [hf] at h
      rw [show Except.map (fun p => ((kv.1 : String), p))
          (Except.ok p : Except String TaxProfile) = Except.ok (kv.1, p) from rfl] at h
      cases hr : mapE (fun kv => (TaxProfile.from_json kv.2).map (fun p => (kv.1, p))) rest with
      | error e2 => rw [hr] at h; exact absurd h (by simp)
      | ok ps =>
        rw [hr] at h
        simp only [Except.ok.injEq] at h
        subst h
        obtain ⟨ih1, ih2⟩ := ih ps hr
        simp only [hf, ih1, List.map_cons]
        exact ⟨trivial, by rw [ih2]⟩

/-- C10: when several records share the same `name`, the loaded mapping
keeps exactly one entry per name — the profile of the record occurring
last in the file's order (the re-keying dict comprehension overwrites
earlier same-named entries). -/
theorem load_profiles_last_wins (raw : List (String × JValue))
    (m : List (String × TaxProfile))
    (hnd : (raw.map Prod.fst).Nodup)
    (h : load_profiles_from raw = .ok m) :
    (m.map Prod.fst).Nodup ∧
    ∃ l, mapE (fun kv => TaxProfile.from_json kv.2) raw = .ok l ∧
      ∀ nm, dget m nm = (l.filter (fun v => decide (v.name = nm))).getLast? := by
  unfold load_profiles_from at h
  cases hme : mapE (fun kv => (TaxProfile.from_json kv.2).map (fun p => (kv.1, p))) raw with
  | error e => rw [hme] at h; exact absurd h (by simp)
  | ok pairs =>
    rw [hme] at h
    simp only [Except.ok.injEq] at h
    obtain ⟨hmap, hkeys⟩ := mapE_pair raw pairs hme
    have hpairs : dictOfPairs pairs = pairs :=
      dictOfPairs_of_nodupKeys pairs (by rw [hkeys]; exact hnd)
    subst h
    refine ⟨keys_nodup_dictOfPairs _, pairs.map Prod.snd, hmap, ?_⟩
    intro nm
    rw [hpairs]
    unfold dictOfPairs
    rw [dget_foldl ((pairs.map Prod.snd).map (fun v => (v.name, v))) [] nm]
    rw [List.filter_map, List.getLast?_map]
    cases hL : ((pairs.map Prod.snd).filter
        ((fun p => decide (p.1 = nm)) ∘ fun v => (v.name, v))).getLast? with
    | some v =>
      have hL' : ((pairs.map Prod.snd).filter (fun v => decide (v.name = nm))).getLast? =
          some v := hL
      rw [hL']
      rfl
    | none =>
      have hL' : ((pairs.map Prod.snd).filter (fun v => decide (v.name = nm))).getLast? =
          none := hL
      rw [hL']
      rfl

theorem load_profiles_last_wins_witness :
    (([("Dup", TaxProfile.mk "Dup" "flat" 2 [])].map Prod.fst).Nodup) ∧
    ∃ l, mapE (fun kv => TaxProfile.from_json kv.2)
        [("A", TaxProfile.to_json ⟨"Dup", "flat", 1, []⟩),
         ("B", TaxProfile.to_json ⟨"Dup", "flat", 2, []⟩)] = .ok l ∧
      ∀ nm, dget [("Dup", TaxProfile.mk "Dup" "flat" 2 [])] nm =
        (l.filter (fun v => decide (v.name = nm))).getLast? :=
  load_profiles_last_wins
    [("A", TaxProfile.to_json ⟨"Dup", "flat", 1, []⟩),
     ("B", TaxProfile.to_json ⟨"Dup", "flat", 2, []⟩)]
    [("Dup", ⟨"Dup", "flat", 2, []⟩)]
    (by decide) rfl

/-! ## Frame property of the progressive calculator -/

theorem readBrackets_some :
    ∀ (heap : List Bracket) (addrs : List Nat) (brs : List Bracket),
      readBrackets heap addrs = some brs → ∀ a ∈ addrs, ∃ b, heap.get? a = some b := by
  intro heap addrs
  induction addrs with
  | nil => intro brs _ a ha; exact absurd ha (List.not_mem_nil a)
  | cons a0 rest ih =>
    intro brs h a ha
    simp only [readBrackets] at h
    cases hg : heap.get? a0 with
    | none => rw [hg] at h; exact absurd h (by simp)
    | some b0 =>
      rw [hg] at h
      cases hr : readBrackets heap rest with
      | none => rw [hr] at h; exact absurd h (by simp)
      | some bs =>
        rcases List.mem_cons.mp ha with rfl | hmem
        · exact ⟨b0, hg⟩
        · exact ih bs hr a hmem

/-- C9: the heap-level run of `compute_tax_progressive` leaves every
cell of the caller's heap — in particular every `Bracket` the argument
list points at — unchanged: the final heap extends the initial one, and
the numeric result is the value-level computation on the bracket values
read from the argument. -/
theorem progressive_heap_frame (t : ℚ) (heap : List Bracket) (addrs : List Nat)
    (res : ℚ × ℚ) (heap2 : List Bracket)
    (h : compute_tax_progressive_heap t heap addrs = some (res, heap2)) :
    (∀ a ∈ addrs, heap2.get? a = heap.get? a) ∧
    (∃ ext, heap2 = heap ++ ext) ∧
    (∃ brs, readBrackets heap addrs = some brs ∧
      compute_tax_progressive t brs = some res) := by
  unfold compute_tax_progressive_heap at h
  split at h
  · exact Option.noConfusion h
  · rename_i brs hrb
    split at h
    · exact Option.noConfusion h
    · rename_i res' hc
      simp only [Option.some.injEq, Prod.mk.injEq] at h
      obtain ⟨h1, h2⟩ := h
      subst h1
      refine ⟨?_, ⟨_, by rw [← h2, List.append_assoc]⟩, brs, hrb, hc⟩
      intro a ha
      obtain ⟨b, hb⟩ := readBrackets_some heap addrs brs hrb a ha
      have halen : a < heap.length := by
        by_contra hcon
        rw [List.get?_eq_none.mpr (le_of_not_lt hcon)] at hb
        exact Option.noConfusion hb
      rw [← h2, List.append_assoc, List.get?_append halen]

theorem progressive_heap_frame_witness :
    (∀ a ∈ [0], ([⟨some 10, 5⟩, ⟨some 10, 5⟩, ⟨none, 5⟩] :
        List Bracket).get? a = ([⟨some 10, 5⟩] : List Bracket).get? a) ∧
    (∃ ext, ([⟨some 10, 5⟩, ⟨some 10, 5⟩, ⟨none, 5⟩] : List Bracket) =
      [⟨some 10, 5⟩] ++ ext) ∧
    (∃ brs, readBrackets [⟨some 10, 5⟩] [0] = some brs ∧
      compute_tax_progressive 20 brs = some (1, 5)) :=
  progressive_heap_frame 20 [⟨some 10, 5⟩] [0] (1, 5)
    [⟨some 10, 5⟩, ⟨some 10, 5⟩, ⟨none, 5⟩]
    (by norm_num [compute_tax_progressive_heap, readBrackets,
      compute_tax_progressive, cleanedOf, List.insertionSort, List.orderedInsert,
      bLe, bndLe, normalizeB, walk, spanOf, max_def, min_def])

end TaxCal
